import Mathlib

set_option maxRecDepth 100000

/-
Verification development for the order-extraction engine of the repository
(src/source/order/process.py).  Strings are modelled as lists of Unicode
characters; Python dictionaries as association lists with insertion-order
iteration and in-place overwriting on key collision (the semantics of
Python 3.7+ dicts); Python floats as exact rationals (all score arithmetic
in the source involves only small integers, halves and small quotients, far
from the decision thresholds 0.6 and 8, so IEEE-754 rounding never flips a
comparison that the rational model decides differently; the one family of
exact-threshold cases, ratio * 10 = 8, rounds back to 8.0 under round-to-
nearest-even and is rejected by the strict comparison in both models).
A raised Python exception is modelled as the error case of Except.
-/

namespace OrderProc

abbrev Str := List Char

/-- Conversion of a Lean string literal to the character-list model. -/
def strL (s : String) : Str := s.data

/-- Whitespace as matched by the relevant Python constructs (str.strip,
str.split, the regex class backslash-s) restricted to the ASCII whitespace
characters, the only whitespace occurring in this development. -/
def isSpace (c : Char) : Bool :=
  c = ' ' || c = '\t' || c = '\n' || c = '\r' || c = '\x0b' || c = '\x0c'

/-- Python str.lower restricted to ASCII plus the precomposed Latin letters
(Latin-1 uppercase, the Vietnamese letters of Latin Extended-A/B and Latin
Extended Additional) that can occur around this code's token vocabulary.
Characters outside these ranges are unchanged. -/
def pyLower (c : Char) : Char :=
  let n := c.toNat
  if 65 ≤ n && n ≤ 90 then Char.ofNat (n + 32)
  else if (192 ≤ n && n ≤ 222) && !(n = 215) then Char.ofNat (n + 32)
  else if n = 0x102 || n = 0x110 || n = 0x128 || n = 0x168 || n = 0x1A0 || n = 0x1AF then
    Char.ofNat (n + 1)
  else if (0x1E00 ≤ n && n ≤ 0x1EFF) && n % 2 = 0 then Char.ofNat (n + 1)
  else c

/-- Case folding of a whole string (str.lower). -/
def lowerStr (s : Str) : Str := s.map pyLower

/-- Python str.strip(): remove whitespace from both ends. -/
def pyStrip (s : Str) : Str :=
  ((s.dropWhile isSpace).reverse.dropWhile isSpace).reverse

/-- Python substring containment: the expression needle in hay. -/
def isSubstr (nd : Str) : Str → Bool
  | [] => nd.isEmpty
  | c :: rest => nd.isPrefixOf (c :: rest) || isSubstr nd rest

/-- Python str.split() (split on whitespace runs, dropping empty pieces). -/
def pySplit (s : Str) : List Str :=
  (s.foldr
    (fun c acc =>
      if isSpace c then [] :: acc
      else
        match acc with
        | [] => [[c]]
        | w :: ws => (c :: w) :: ws)
    [[]]).filter (fun w => !w.isEmpty)

/-- Python str.split(sep) for a one-character separator, keeping empty
pieces (they are filtered by the callers exactly as the source does). -/
def splitChar (sep : Char) (s : Str) : List Str :=
  s.foldr
    (fun c acc =>
      if c = sep then [] :: acc
      else
        match acc with
        | [] => [[c]]
        | w :: ws => (c :: w) :: ws)
    [[]]

/-- Python " ".join. -/
def joinSpace (ws : List Str) : Str := List.intercalate [' '] ws

/-- Python str.find: index of the first occurrence, as an option. -/
def pyFindAux (nd : Str) : Str → Nat → Option Nat
  | [], i => if nd.isEmpty then some i else none
  | c :: rest, i => if nd.isPrefixOf (c :: rest) then some i else pyFindAux nd rest (i + 1)

/-- Python str.find: index of the first occurrence, or -1. -/
def pyFind (hay nd : Str) : Int :=
  match pyFindAux nd hay 0 with
  | some i => (i : Int)
  | none => -1

/-- Numeric value of a digit group captured by a regex (Python int()). -/
def natOfDigits (ds : Str) : Nat := ds.foldl (fun n c => n * 10 + (c.toNat - 48)) 0

/-- Word characters for the regex word-boundary construct: ASCII letters,
digits, underscore; codepoints at or above U+00C0 (which here are always
Latin letters) are treated as word characters. -/
def isWordChar (c : Char) : Bool := c.isAlphanum || c = '_' || 0xC0 ≤ c.toNat

/-! Field extractors (extract_quantity, extract_note of process.py). -/

/-- Unit vocabulary of the quantity regex, in the alternation order of the
source pattern: x, cái, chai, gói, hộp, thùng, lon, kg, g, ml, l. -/
def unitTokens : List Str :=
  [strL "x", strL "cái", strL "chai", strL "gói", strL "hộp", strL "thùng",
   strL "lon", strL "kg", strL "g", strL "ml", strL "l"]

/-- Does some unit token start at this position (case-folded text)? -/
def unitAt (s : Str) : Bool := unitTokens.any (fun u => u.isPrefixOf s)

/-- Leading list-numbering removal: the substitution of a leading
digits-dot-whitespace with the empty string. -/
def stripListNumbering (s : Str) : Str :=
  let run := s.takeWhile Char.isDigit
  if run.isEmpty then s
  else
    match s.drop run.length with
    | '.' :: rest => rest.dropWhile isSpace
    | _ => s

/-- Success of the first quantity pattern (digits, optional whitespace, a
unit token) at the current position.  The regex engine must consume the
whole maximal digit run and the whole whitespace run before the unit token,
because no unit token begins with a digit or a space, so all shorter
backtracked attempts fail. -/
def p1Head (s : Str) : Bool :=
  match s with
  | [] => false
  | c :: _ =>
    c.isDigit && unitAt ((s.drop (s.takeWhile Char.isDigit).length).dropWhile isSpace)

/-- Leftmost match of the first quantity pattern; returns the digit group. -/
def qtyP1 : Str → Option Nat
  | [] => none
  | c :: rest =>
    if p1Head (c :: rest) then some (natOfDigits ((c :: rest).takeWhile Char.isDigit))
    else qtyP1 rest

/-- Label of the second quantity pattern. -/
def qtyLabel : Str := strL "số lượng"

/-- Success of the second quantity pattern (quantity label, then a run of
colons and whitespace, then at least one digit) at the current position. -/
def p2Head (s : Str) : Bool :=
  qtyLabel.isPrefixOf s &&
    (match (s.drop qtyLabel.length).dropWhile (fun c => c = ':' || isSpace c) with
     | [] => false
     | c :: _ => c.isDigit)

/-- Leftmost match of the second quantity pattern; returns the digit group. -/
def qtyP2 : Str → Option Nat
  | [] => none
  | c :: rest =>
    if p2Head (c :: rest) then
      some (natOfDigits
        (((c :: rest).drop qtyLabel.length).dropWhile (fun ch => ch = ':' || isSpace ch)
          |>.takeWhile Char.isDigit))
    else qtyP2 rest

/-- Trailing word boundary after the maximal digit run at this position. -/
def p3Bound (s : Str) : Bool :=
  match s.drop (s.takeWhile Char.isDigit).length with
  | [] => true
  | d :: _ => !isWordChar d

/-- Leftmost match of the third quantity pattern (a standalone digit run
between word boundaries); prevWord records whether the character before the
current position is a word character. -/
def qtyP3 (prevWord : Bool) : Str → Option Nat
  | [] => none
  | c :: rest =>
    if c.isDigit && !prevWord && p3Bound (c :: rest) then
      some (natOfDigits ((c :: rest).takeWhile Char.isDigit))
    else qtyP3 (isWordChar c) rest

/-- Quantity extraction: strip a leading list numbering and try the three
patterns in order on the case-folded text, defaulting to 1. -/
def extract_quantity (text : Str) : Nat :=
  let low := lowerStr (stripListNumbering text)
  match qtyP1 low with
  | some n => n
  | none =>
    match qtyP2 low with
    | some n => n
    | none =>
      match qtyP3 false low with
      | some n => n
      | none => 1

/-- Note labels of the first note pattern, in alternation order. -/
def noteLabels1 : List Str := [strL "note", strL "ghi chú", strL "lưu ý"]

/-- Note label of the second note pattern. -/
def noteLabels2 : List Str := [strL "yêu cầu"]

/-- Leftmost occurrence of any of the labels (position and label length);
matching is done on the case-folded text. -/
def findLabelIdx (labels : List Str) : Str → Option (Nat × Nat)
  | [] => none
  | c :: rest =>
    match labels.find? (fun L => L.isPrefixOf (c :: rest)) with
    | some L => some (0, L.length)
    | none => (findLabelIdx labels rest).map (fun p => (p.1 + 1, p.2))

/-- Captured note text after a label: the separator run of colons and
whitespace is consumed greedily, the dot-star capture stops at a newline,
and the captured group is stripped. -/
def noteTail (s : Str) : Str :=
  pyStrip ((s.dropWhile (fun c => c = ':' || isSpace c)).takeWhile (fun c => c ≠ '\n'))

/-- Note extraction: the first pattern family, then the second; matching is
case-insensitive but the captured text keeps the original case (pyLower is
length-preserving, so positions in the folded text align with the original). -/
def extract_note (text : Str) : Str :=
  match findLabelIdx noteLabels1 (lowerStr text) with
  | some (i, len) => noteTail (text.drop (i + len))
  | none =>
    match findLabelIdx noteLabels2 (lowerStr text) with
    | some (i, len) => noteTail (text.drop (i + len))
    | none => []

/-! Similarity ratio (difflib.SequenceMatcher, as used by the fuzzy stage).
The strings compared here are far shorter than 200 characters, so the
autojunk popularity heuristic of difflib is inactive and the matcher is the
plain Ratcliff-Obershelp recursion: find the longest matching block
(ties: smallest position in the first string, then in the second), recurse
on both sides, and sum the block sizes. -/

/-- Length of the common prefix of two strings. -/
def commonRunLen : Str → Str → Nat
  | a :: as, b :: bs => if a = b then commonRunLen as bs + 1 else 0
  | _, _ => 0

/-- Longest matching block of two strings: the triple (i, j, size) with the
largest size; on ties the smallest i, then the smallest j, matching the
selection order of difflib (a block is recorded only when strictly longer
than the best so far, scanning i, then j, in increasing order). -/
def longestMatch (a b : Str) : Nat × Nat × Nat :=
  (List.range a.length).foldl
    (fun best i =>
      (List.range b.length).foldl
        (fun best j =>
          let k := commonRunLen (a.drop i) (b.drop j)
          if best.2.2 < k then (i, j, k) else best)
        best)
    (0, 0, 0)

/-- Total size of the matching blocks, on explicit recursion fuel.  By
longestMatch_le each recursive call strictly decreases the summed length of
the two slices, so fuel equal to that sum is always sufficient and the
computed value is the quantity difflib calls M. -/
def matchingSizeAux : Nat → Str → Str → Nat
  | 0, _, _ => 0
  | fuel + 1, a, b =>
    if (longestMatch a b).2.2 = 0 then 0
    else
      matchingSizeAux fuel (a.take (longestMatch a b).1) (b.take (longestMatch a b).2.1) +
        (longestMatch a b).2.2 +
        matchingSizeAux fuel (a.drop ((longestMatch a b).1 + (longestMatch a b).2.2))
          (b.drop ((longestMatch a b).2.1 + (longestMatch a b).2.2))

/-- Total size of the matching blocks (difflib M). -/
def matchingSize (a b : Str) : Nat := matchingSizeAux (a.length + b.length) a b

/-- Exact rational score values.  Python float scores are modelled exactly:
a numerator with a positive denominator, never normalised (no gcd), so that
every operation and comparison reduces inside the kernel.  Comparisons are
cross-multiplications, sound because denominators are positive. -/
structure Sc where
  num : Int
  den : Nat
  dpos : 0 < den

/-- Score value of a natural number. -/
def Sc.ofNat (n : Nat) : Sc := ⟨n, 1, Nat.one_pos⟩

/-- Exact addition of score values. -/
def Sc.add (a b : Sc) : Sc :=
  ⟨a.num * b.den + b.num * a.den, a.den * b.den, Nat.mul_pos a.dpos b.dpos⟩

/-- Multiplication of a score value by a natural number. -/
def Sc.mulNat (a : Sc) (n : Nat) : Sc := ⟨a.num * n, a.den, a.dpos⟩

/-- Strict comparison of score values. -/
def Sc.blt (a b : Sc) : Bool := decide (a.num * (b.den : Int) < b.num * (a.den : Int))

/-- Non-strict comparison of score values, as a proposition. -/
def Sc.leP (a b : Sc) : Prop := a.num * (b.den : Int) ≤ b.num * (a.den : Int)

/-- Positivity of a score value (score strictly above zero). -/
def Sc.posB (a : Sc) : Bool := decide (0 < a.num)

/-- SequenceMatcher.ratio: 2 M / T, or 1 when both strings are empty. -/
def pySim (a b : Str) : Sc :=
  if h : a.length + b.length = 0 then Sc.ofNat 1
  else ⟨2 * (matchingSize a b : Int), a.length + b.length, Nat.pos_of_ne_zero h⟩

/-! Catalog data model and the name index
(create_product_name_to_id_mapping of process.py). -/

/-- One catalog record: the values at the keys 1st_name, 2nd_name and
3rd_name; none models an absent key, some [] an empty (falsy) value. -/
structure ProductInfo where
  name1 : Option Str
  name2 : Option Str
  name3 : Option Str
deriving DecidableEq

/-- The raw catalog (a JSON-decoded Python dict in iteration order). -/
abbrev Catalog := List (Str × ProductInfo)

/-- The name index (a Python dict from case-folded name to product id). -/
abbrev NameIndex := List (Str × Str)

/-- Python dict assignment: overwrite in place if the key exists
(keeping its position), otherwise append. -/
def dictInsert (d : NameIndex) (k v : Str) : NameIndex :=
  if d.any (fun p => p.1 = k) then d.map (fun p => if p.1 = k then (k, v) else p)
  else d ++ [(k, v)]

/-- Python dict lookup on the name index. -/
def dictLookup (d : NameIndex) (k : Str) : Option Str :=
  (d.find? (fun p => p.1 = k)).map (fun p => p.2)

/-- Python dict lookup on the catalog. -/
def dictGet (d : Catalog) (k : Str) : Option ProductInfo :=
  (d.find? (fun p => p.1 = k)).map (fun p => p.2)

/-- Python membership test on the catalog (id in product_data). -/
def dictHasKey (d : Catalog) (k : Str) : Bool := (d.find? (fun p => p.1 = k)).isSome

/-- Truthiness of an optional string field. -/
def truthy (o : Option Str) : Bool :=
  match o with
  | some s => !s.isEmpty
  | none => false

/-- Registering the up-to-three names of one product in the index, in
source order: 1st_name, then 2nd_name, then 3rd_name, each only when
present and non-empty, each case-folded. -/
def addProductNames (d : NameIndex) (pid : Str) (info : ProductInfo) : NameIndex :=
  let d1 := if truthy info.name1 then dictInsert d (lowerStr (info.name1.getD [])) pid else d
  let d2 := if truthy info.name2 then dictInsert d1 (lowerStr (info.name2.getD [])) pid else d1
  if truthy info.name3 then dictInsert d2 (lowerStr (info.name3.getD [])) pid else d2

/-- Index construction over the whole catalog in iteration order. -/
def create_product_name_to_id_mapping (data : Catalog) : NameIndex :=
  data.foldl (fun d p => addProductNames d p.1 p.2) []

/-- The flat sequence of (case-folded name, id) registrations performed by
create_product_name_to_id_mapping, in order. -/
def regsOf (pid : Str) (info : ProductInfo) : List (Str × Str) :=
  (if truthy info.name1 then [(lowerStr (info.name1.getD []), pid)] else []) ++
    (if truthy info.name2 then [(lowerStr (info.name2.getD []), pid)] else []) ++
      (if truthy info.name3 then [(lowerStr (info.name3.getD []), pid)] else [])

/-- All registrations of a catalog. -/
def registrations (data : Catalog) : List (Str × Str) :=
  data.flatMap (fun p => regsOf p.1 p.2)

/-! Product matcher (find_best_product_match of process.py). -/

/-- Hexadecimal digit value. -/
def hexVal (c : Char) : Option Nat :=
  if c.isDigit then some (c.toNat - 48)
  else if 'a' ≤ c && c ≤ 'f' then some (c.toNat - 87)
  else if 'A' ≤ c && c ≤ 'F' then some (c.toNat - 55)
  else none

/-- Percent-decoding (urllib.parse.unquote), modelled for the single-byte
escapes this development ever feeds it: a valid percent escape below 0x80
decodes to that ASCII character, a valid escape at or above 0x80 is an
invalid single UTF-8 byte and decodes to the replacement character (Python
decodes with errors set to replace; multi-byte escape runs never occur in
the verified inputs and are not joined), and an invalid escape is kept
verbatim. -/
def pyUnquote : Str → Str
  | [] => []
  | '%' :: a :: b :: rest =>
    match hexVal a, hexVal b with
    | some ha, some hb =>
      (if ha * 16 + hb < 128 then Char.ofNat (ha * 16 + hb) else '�') :: pyUnquote rest
    | _, _ => '%' :: pyUnquote (a :: b :: rest)
  | c :: rest => c :: pyUnquote rest

/-- Normalisation at the top of find_best_product_match: percent-decode
when a percent sign is present, then case-fold and trim. -/
def normalizeText (s : Str) : Str :=
  pyStrip (lowerStr (if s.any (fun c => c = '%') then pyUnquote s else s))

/-- The special-case override table, in source order: substring trigger,
product id, canonical display string. -/
def specialMatches : List (Str × Str × Str) :=
  [(strL "trà gừng cozy", strL "128661", strL "trà gừng cozy (20 gói)"),
   (strL "sữa đậu nành fami", strL "121827", strL "sữa đậu nành fami (200ml)"),
   (strL "chà là sấy khô", strL "121830", strL "chà là sấy khô (600g)")]

/-- Stage 1: special-case overrides by substring containment against the
folded phrase, used only when the target id still exists in the catalog
(when it does not, the loop continues with the next entry). -/
def specialStage (t : Str) (data : Catalog) : Option (Str × Str) :=
  specialMatches.findSome? (fun q =>
    if isSubstr q.1 t && dictHasKey data q.2.1 then some (q.2.1, q.2.2) else none)

/-- Stage 2: exact equality with an index key; the first matching entry in
index iteration order is returned. -/
def exactStage (t : Str) : NameIndex → Option (Str × Str)
  | [] => none
  | (nm, pid) :: rest => if nm = t then some (pid, nm) else exactStage t rest

/-- Key words of the phrase: whitespace-separated words of length at least
2 (computed once in the source; the stage functions below recompute the
same value from the same phrase). -/
def keyWordsOf (t : Str) : List Str := (pySplit t).filter (fun w => 2 ≤ w.length)

/-- First element with the maximal third component; models the stable
descending sort by score followed by taking the head (a later element
replaces the current best only when strictly greater). -/
def pickBestQ : List (Str × Str × Sc) → Option (Str × Str × Sc)
  | [] => none
  | x :: xs =>
    match pickBestQ xs with
    | none => some x
    | some b => some (if Sc.blt x.2.2 b.2.2 then b else x)

/-- Stage 3: similarity-ratio matching; candidates above ratio 0.6, picked
by weighted score ratio times 10, accepted only above weight 8, otherwise
the stage yields nothing and resolution falls through. -/
def fuzzyStage (t : Str) (idx : NameIndex) : Option (Str × Str) :=
  let pot := idx.filterMap (fun p =>
    if Sc.blt ⟨3, 5, by omega⟩ (pySim t p.1) then
      some (p.2, p.1, (pySim t p.1).mulNat 10)
    else none)
  match pickBestQ pot with
  | none => none
  | some b => if Sc.blt (Sc.ofNat 8) b.2.2 then some (b.1, b.2.1) else none

/-- The four brand tokens (the list also appears inline in the general
scoring stage of the source). -/
def importantBrands : List Str := [strL "cozy", strL "fami", strL "hq", strL "cp"]

/-- Brand-priority score for one catalog name and one mentioned brand:
50 base, plus 30 when the non-brand remainder of the phrase occurs
verbatim in the name, otherwise 10 per remainder word longer than 2
characters found in the name. -/
def brandScoreOf (t : Str) (nm : Str) (brand : Str) : Sc :=
  let ptype := joinSpace ((pySplit t).filter (fun w => w ≠ brand))
  Sc.ofNat (50 +
    (if isSubstr ptype nm then 30
     else
       (pySplit ptype).foldl
         (fun acc w => if decide (2 < w.length) && isSubstr w nm then acc + 10 else acc) 0))

/-- Stage 4: brand-priority matching over every (name, mentioned brand)
pair in iteration order. -/
def brandStage (t : Str) (idx : NameIndex) : Option (Str × Str) :=
  let mentioned := importantBrands.filter (fun b => isSubstr b t)
  let bm := idx.flatMap (fun p =>
    mentioned.filterMap (fun b =>
      if isSubstr b p.1 then some (p.2, p.1, brandScoreOf t p.1 b) else none))
  (pickBestQ bm).map (fun b => (b.1, b.2.1))

/-- Stage 5: names containing every key word longer than 2 characters;
score 20, plus 30 when the cozy token occurs in both phrase and name. -/
def keywordStage (t : Str) (idx : NameIndex) : Option (Str × Str) :=
  let kws := keyWordsOf t
  let ex := idx.filterMap (fun p =>
    if (kws.filter (fun w => 2 < w.length)).all (fun w => isSubstr w p.1) then
      some (p.2, p.1,
        Sc.ofNat (if isSubstr (strL "cozy") t && isSubstr (strL "cozy") p.1 then 50 else 20))
    else none)
  (pickBestQ ex).map (fun b => (b.1, b.2.1))

/-- Identifier tokens of the general scoring stage, in source order. -/
def specialIdentifiers : List Str :=
  [strL "cozy", strL "fami", strL "hq", strL "cp", strL "ml", strL "g", strL "kg",
   strL "cm", strL "l"]

/-- Stage 6 score of one catalog name against the phrase: containment both
ways, identifier co-occurrence (15 for brands, 5 for the rest), per-word
containment with an order-preservation half-point, the matched fraction of
key words times 3, and 4 when every key word longer than 2 characters is
contained. -/
def generalScore (t nm : Str) : Sc :=
  let kws := keyWordsOf t
  let s1 : Nat := if isSubstr t nm then 10 else if isSubstr nm t then 8 else 0
  let s2 : Nat :=
    specialIdentifiers.foldl
      (fun acc idf =>
        if isSubstr idf t && isSubstr idf nm then
          acc + (if importantBrands.contains idf then 15 else 5)
        else acc)
      0
  let s3 :=
    kws.foldl
      (fun (st : Sc × Int) w =>
        if w.length < 2 then st
        else if isSubstr w nm then
          (if st.2 < pyFind nm w then ((st.1.add (Sc.ofNat 1)).add ⟨1, 2, by omega⟩, pyFind nm w)
           else (st.1.add (Sc.ofNat 1), st.2))
        else st)
      (Sc.ofNat 0, (-1 : Int))
  let mw := (kws.filter (fun w => isSubstr w nm && decide (2 < w.length))).length
  let s4 : Sc :=
    if 0 < mw then
      (match h : kws with
       | [] => Sc.ofNat 0
       | _ :: _ => ⟨mw, kws.length, by simp [h]⟩).mulNat 3
    else Sc.ofNat 0
  let s5 : Nat :=
    if (kws.filter (fun w => 2 < w.length)).all (fun w => isSubstr w nm) then 4 else 0
  ((((Sc.ofNat s1).add (Sc.ofNat s2)).add s3.1).add s4).add (Sc.ofNat s5)

/-- Stage 6: keep the names with positive score, return the best, ties
resolved to the first in index iteration order. -/
def generalStage (t : Str) (idx : NameIndex) : Option (Str × Str) :=
  let ms := idx.filterMap (fun p =>
    if (generalScore t p.1).posB then some (p.2, p.1, generalScore t p.1) else none)
  (pickBestQ ms).map (fun b => (b.1, b.2.1))

/-- The full matcher: normalise, then run the stages in order; the first
stage that returns a candidate wins. -/
def find_best_product_match (txt : Str) (idx : NameIndex) (data : Catalog) :
    Option (Str × Str) :=
  let t := normalizeText txt
  match specialStage t data with
  | some r => some r
  | none =>
    match exactStage t idx with
    | some r => some r
    | none =>
      match fuzzyStage t idx with
      | some r => some r
      | none =>
        match brandStage t idx with
        | some r => some r
        | none =>
          match keywordStage t idx with
          | some r => some r
          | none => generalStage t idx

/-! Order assembler (process_order of process.py). -/

/-- Match of the quantity-unit removal pattern at the head of the string:
digits, optional whitespace, then the first unit token of the alternation;
returns the consumed length. -/
def matchQtyUnitLen (s : Str) : Option Nat :=
  let run := s.takeWhile Char.isDigit
  if run.isEmpty then none
  else
    let afterD := s.drop run.length
    let sp := afterD.takeWhile isSpace
    match unitTokens.find? (fun u => u.isPrefixOf (lowerStr (afterD.drop sp.length))) with
    | some u => some (run.length + sp.length + u.length)
    | none => none

/-- Substitution of every quantity-unit match with the empty string,
scanning left to right; on explicit fuel (every match consumes at least one
character, so fuel equal to the length is always sufficient). -/
def removeQtyUnitsAux : Nat → Str → Str
  | _, [] => []
  | 0, s => s
  | fuel + 1, c :: rest =>
    match matchQtyUnitLen (c :: rest) with
    | some n => removeQtyUnitsAux fuel ((c :: rest).drop n)
    | none => c :: removeQtyUnitsAux fuel rest

/-- Substitution of every quantity-unit match with the empty string. -/
def removeQtyUnits (s : Str) : Str := removeQtyUnitsAux s.length s

/-- The note labels of the note-removal substitution, one alternation. -/
def noteLabelsAll : List Str := [strL "note", strL "ghi chú", strL "lưu ý", strL "yêu cầu"]

/-- Match of the note-removal pattern at the head of the string: a label,
a greedy run of colons and whitespace, then everything up to a newline;
returns the remaining text after the match. -/
def noteCut (s : Str) : Option Str :=
  match noteLabelsAll.find? (fun L => L.isPrefixOf (lowerStr s)) with
  | some L =>
    some (((s.drop L.length).dropWhile (fun c => c = ':' || isSpace c)).dropWhile
      (fun c => c ≠ '\n'))
  | none => none

/-- Substitution of every note-label match with the empty string, scanning
left to right; on explicit fuel (every match consumes at least the label,
so fuel equal to the length is always sufficient). -/
def removeNoteOnwardAux : Nat → Str → Str
  | _, [] => []
  | 0, s => s
  | fuel + 1, c :: rest =>
    match noteCut (c :: rest) with
    | some r => removeNoteOnwardAux fuel r
    | none => c :: removeNoteOnwardAux fuel rest

/-- Substitution of every note-label match with the empty string. -/
def removeNoteOnward (s : Str) : Str := removeNoteOnwardAux s.length s

/-- Residual product phrase of a line: remove the quantity-unit matches,
remove everything from a note label to the end of line, trim. -/
def cleanedProductText (line : Str) : Str :=
  pyStrip (removeNoteOnward (removeQtyUnits line))

/-- One resolved order line of the output. -/
structure OrderItem where
  product_name : Str
  product_id : Str
  quantity : Nat
  note : Str
deriving DecidableEq

/-- One per-line diagnostic record of the trace. -/
structure LineDebug where
  original_line : Str
  quantity : Nat
  note : Str
  cleaned_product_text : Str
  matched_product_id : Option Str
  matched_product_name : Option Str
deriving DecidableEq

/-- The result object: the optional top-level error, the resolved order
items, and the per-line trace.  The scalar counters and samples of the
debug dictionary of the source are derived data and are not modelled. -/
structure OrderResult where
  error : Option Str
  order_items : List OrderItem
  product_matches : List LineDebug
deriving DecidableEq

/-- Decidable equality for exception-carrying results. -/
instance {ε α : Type} [DecidableEq ε] [DecidableEq α] : DecidableEq (Except ε α) := fun x y =>
  match x, y with
  | .ok a, .ok b =>
    if h : a = b then isTrue (by subst h; rfl)
    else isFalse (by intro hc; cases hc; exact h rfl)
  | .error a, .error b =>
    if h : a = b then isTrue (by subst h; rfl)
    else isFalse (by intro hc; cases hc; exact h rfl)
  | .ok _, .error _ => isFalse (by intro hc; cases hc)
  | .error _, .ok _ => isFalse (by intro hc; cases hc)

/-- The KeyError raised by the access to a missing 1st_name field. -/
def keyErrName : Str := strL "KeyError: 1st_name"

/-- The KeyError raised by the access to a missing product id. -/
def keyErrId : Str := strL "KeyError: product id"

/-- Processing of one line of the message: extract quantity and note,
clean the phrase, match; build the order item when the matched id is
truthy, reading the display name from the catalog (an access that raises
when the matched product has no 1st_name field). -/
def processLine (idx : NameIndex) (data : Catalog) (line : Str) :
    Except Str (Option OrderItem × LineDebug) :=
  let q := extract_quantity line
  let note := extract_note line
  let ptext := cleanedProductText line
  match find_best_product_match ptext idx data with
  | none => .ok (none, ⟨line, q, note, ptext, none, none⟩)
  | some (pid, nm) =>
    if pid.isEmpty then .ok (none, ⟨line, q, note, ptext, some pid, some nm⟩)
    else
      match dictGet data pid with
      | none => .error keyErrId
      | some info =>
        match info.name1 with
        | none => .error keyErrName
        | some n1 => .ok (some ⟨n1, pid, q, note⟩, ⟨line, q, note, ptext, some pid, some nm⟩)

/-- The per-line loop: items are appended in order, every processed line
contributes a trace record, a raised access aborts the loop. -/
def processLinesAux (idx : NameIndex) (data : Catalog) :
    List Str → Except Str (List OrderItem × List LineDebug)
  | [] => .ok ([], [])
  | l :: ls =>
    match processLine idx data l with
    | .error e => .error e
    | .ok (it, d) =>
      match processLinesAux idx data ls with
      | .error e => .error e
      | .ok (its, tr) =>
        .ok ((match it with
              | some x => x :: its
              | none => its), d :: tr)

/-- Line segmentation: commas become newlines, the text splits on
newlines, every segment is trimmed and empty segments are dropped. -/
def segmentLines (msg : Str) : List Str :=
  ((splitChar '\n' (msg.map (fun c => if c = ',' then '\n' else c))).map pyStrip).filter
    (fun l => !l.isEmpty)

/-- The segments actually processed by the loop: at least 3 characters. -/
def plinesOf (msg : Str) : List Str := (segmentLines msg).filter (fun l => 3 ≤ l.length)

/-- The core of process_order after a successful catalog load: build the
index and run the per-line loop. -/
def processOrderCore (msg : Str) (data : Catalog) :
    Except Str (List OrderItem × List LineDebug) :=
  processLinesAux (create_product_name_to_id_mapping data) data (plinesOf msg)

/-- process_order: a failed catalog load returns the structured error
object with empty order items; a successful load runs the core; a raised
access propagates as the error case. -/
def process_order (msg : Str) (loadResult : Except Str Catalog) : Except Str OrderResult :=
  match loadResult with
  | .error e => .ok ⟨some (strL "Failed to load product data: " ++ e), [], []⟩
  | .ok data => (processOrderCore msg data).map (fun r => ⟨none, r.1, r.2⟩)

/-- The MCP resource wrapper: percent-decode the message, call
process_order, convert any raised exception into the structured error
object with empty order items. -/
def process_order_resource (msg : Str) (loadResult : Except Str Catalog) : OrderResult :=
  match process_order (pyUnquote msg) loadResult with
  | .ok r => r
  | .error e => ⟨some e, [], []⟩

/-! Support definitions for the verified properties. -/

/-- The message of the combined-extraction property. -/
def msgC1 : Str := strL "2 bottles Fami Soy Milk, note: cold"

/-- A catalog whose only product has the case-folded name fami soy milk. -/
def catC1 : Catalog := [(strL "p1", ⟨some (strL "Fami Soy Milk"), none, none⟩)]

/-- Occurrence of the first quantity pattern at some position. -/
def hasP1 (s : Str) : Bool := (List.range s.length).any (fun i => p1Head (s.drop i))

/-- Occurrence of the second quantity pattern at some position. -/
def hasP2 (s : Str) : Bool := (List.range s.length).any (fun i => p2Head (s.drop i))

/-- Occurrence of the third quantity pattern at one position: a leading
word boundary (computed from prev for position zero, from the previous
character otherwise), then a digit with a trailing word boundary after the
digit run. -/
def p3At (prev : Bool) (s : Str) (i : Nat) : Bool :=
  match s.drop i with
  | [] => false
  | c :: _ =>
    c.isDigit && (if i = 0 then !prev else !isWordChar (s.getD (i - 1) ' ')) &&
      p3Bound (s.drop i)

/-- Occurrence of the third quantity pattern at some position. -/
def hasP3 (s : Str) : Bool := (List.range s.length).any (fun i => p3At false s i)

/-- Occurrence of any quantity pattern in the prepared (numbering-stripped,
case-folded) text, the condition under which extract_quantity does not
fall back to the default. -/
def hasQtyPattern (text : Str) : Bool :=
  let low := lowerStr (stripListNumbering text)
  hasP1 low || hasP2 low || hasP3 low

/-- The catalog of the index-collision counterexample: two products whose
primary names collide after case folding. -/
def catC6 : Catalog :=
  [(strL "p1", ⟨some (strL "Tea"), none, none⟩), (strL "p2", ⟨some (strL "TEA"), none, none⟩)]

/-- A one-product catalog whose folded primary name is registered once. -/
def catW6 : Catalog := [(strL "p1", ⟨some (strL "Tea"), none, none⟩)]

/-- The selection over positively scored candidates, as performed by the
general scoring stage before the final projection. -/
def pickGS (t : Str) (idx : NameIndex) : Option (Str × Str × Sc) :=
  pickBestQ (idx.filterMap (fun p =>
    if (generalScore t p.1).posB then some (p.2, p.1, generalScore t p.1) else none))

/-- The two-entry index of the general-stage tie witness. -/
def idxW8 : NameIndex := [(strL "ax", strL "p1"), (strL "bx", strL "p2")]

/-! Structural lemmas for the per-line loop. -/

/-- The order item contributed by one line (none when unmatched or when the
line raises). -/
def lineItem? (idx : NameIndex) (data : Catalog) (l : Str) : Option OrderItem :=
  match processLine idx data l with
  | .ok p => p.1
  | .error _ => none

/-- The trace record contributed by one line (a placeholder when the line
raises; under a completed run every line is on the ok path). -/
def lineDbgOf (idx : NameIndex) (data : Catalog) (l : Str) : LineDebug :=
  match processLine idx data l with
  | .ok p => p.2
  | .error _ => ⟨l, 0, [], [], none, none⟩

/-- The message and catalog of the unmatched-line witness. -/
def msgW7 : Str := strL "xyzqwk, bia"

/-- The catalog of the unmatched-line witness. -/
def dataW7 : Catalog := [(strL "p1", ⟨some (strL "bia"), none, none⟩)]

/-- The order items of the unmatched-line witness run. -/
def itsW7 : List OrderItem := [⟨strL "bia", strL "p1", 1, []⟩]

/-- The trace of the unmatched-line witness run. -/
def trW7 : List LineDebug :=
  [⟨strL "xyzqwk", 1, [], strL "xyzqwk", none, none⟩,
   ⟨strL "bia", 1, [], strL "bia", some (strL "p1"), some (strL "bia")⟩]

/-- The catalog of the missing-primary-name counterexample: the only
product is indexed through its second name and has no 1st_name field. -/
def catC3 : Catalog := [(strL "p1", ⟨none, some (strL "Cola"), none⟩)]

/-- The catalog of the totality witness. -/
def catW3 : Catalog := [(strL "p1", ⟨some (strL "bia"), none, none⟩)]

/-! Helper lemmas and verified properties. -/

theorem commonRunLen_le_left (a b : Str) : commonRunLen a b ≤ a.length := by
  induction a generalizing b with
  | nil => cases b <;> simp [commonRunLen]
  | cons x xs ih =>
    cases b with
    | nil => simp [commonRunLen]
    | cons y ys =>
      simp only [commonRunLen, List.length_cons]
      split
      · exact Nat.succ_le_succ (ih ys)
      · exact Nat.zero_le _

theorem commonRunLen_le_right (a b : Str) : commonRunLen a b ≤ b.length := by
  induction a generalizing b with
  | nil => cases b <;> simp [commonRunLen]
  | cons x xs ih =>
    cases b with
    | nil => simp [commonRunLen]
    | cons y ys =>
      simp only [commonRunLen, List.length_cons]
      split
      · exact Nat.succ_le_succ (ih ys)
      · exact Nat.zero_le _

/-- Fold invariant principle with the motive passed positionally. -/
theorem foldlInv {α β : Type} (C : β → Prop) (op : β → α → β) :
    ∀ (l : List α) (init : β), C init →
      (∀ x ∈ l, ∀ d, C d → C (op d x)) → C (l.foldl op init) := by
  intro l
  induction l with
  | nil => intro init h _; simpa using h
  | cons x xs ih =>
    intro init h hstep
    simp only [List.foldl_cons]
    exact ih _ (hstep x (by simp) init h) (fun y hy => hstep y (by simp [hy]))

/-- Bounds of the longest matching block inside both strings. -/
theorem longestMatch_le (a b : Str) :
    (longestMatch a b).1 + (longestMatch a b).2.2 ≤ a.length ∧
      (longestMatch a b).2.1 + (longestMatch a b).2.2 ≤ b.length := by
  unfold longestMatch
  refine foldlInv (fun (t : Nat × Nat × Nat) => t.1 + t.2.2 ≤ a.length ∧ t.2.1 + t.2.2 ≤ b.length) _ _ _
    ⟨Nat.zero_le _, Nat.zero_le _⟩ ?_
  intro i hi best hbest
  refine foldlInv (fun (t : Nat × Nat × Nat) => t.1 + t.2.2 ≤ a.length ∧ t.2.1 + t.2.2 ≤ b.length) _ _ _
    hbest ?_
  intro j hj best2 hbest2
  dsimp only
  split
  · refine ⟨?_, ?_⟩
    · show i + commonRunLen (a.drop i) (b.drop j) ≤ a.length
      have h1 : commonRunLen (a.drop i) (b.drop j) ≤ a.length - i := by
        simpa using commonRunLen_le_left (a.drop i) (b.drop j)
      have h2 : i < a.length := List.mem_range.mp hi
      omega
    · show j + commonRunLen (a.drop i) (b.drop j) ≤ b.length
      have h1 : commonRunLen (a.drop i) (b.drop j) ≤ b.length - j := by
        simpa using commonRunLen_le_right (a.drop i) (b.drop j)
      have h2 : j < b.length := List.mem_range.mp hj
      omega
  · exact hbest2

/-! Helper lemmas for the extractor scans. -/

theorem qtyP1_eq_none (s : Str) (h : ∀ i, p1Head (s.drop i) = false) : qtyP1 s = none := by
  induction s with
  | nil => rfl
  | cons c rest ih =>
    have h0 : p1Head (c :: rest) = false := by simpa using h 0
    rw [qtyP1, h0]
    simp only [Bool.false_eq_true, if_false]
    exact ih (fun i => by simpa using h (i + 1))

theorem qtyP2_eq_none (s : Str) (h : ∀ i, p2Head (s.drop i) = false) : qtyP2 s = none := by
  induction s with
  | nil => rfl
  | cons c rest ih =>
    have h0 : p2Head (c :: rest) = false := by simpa using h 0
    rw [qtyP2, h0]
    simp only [Bool.false_eq_true, if_false]
    exact ih (fun i => by simpa using h (i + 1))

theorem qtyP3_eq_none (prev : Bool) (s : Str) (h : ∀ i, p3At prev s i = false) :
    qtyP3 prev s = none := by
  induction s generalizing prev with
  | nil => rfl
  | cons c rest ih =>
    have h0 : (c.isDigit && !prev && p3Bound (c :: rest)) = false := by
      have := h 0
      simp only [p3At, List.drop_zero, if_pos rfl] at this
      cases hc : c.isDigit <;> cases prev <;> cases hb : p3Bound (c :: rest) <;>
        simp_all
    rw [qtyP3, h0]
    simp only [Bool.false_eq_true, if_false]
    refine ih (isWordChar c) (fun i => ?_)
    have := h (i + 1)
    cases i with
    | zero =>
      simpa [p3At] using this
    | succ j =>
      simpa [p3At] using this

theorem of_hasP1_false (s : Str) (h : hasP1 s = false) : ∀ i, p1Head (s.drop i) = false := by
  intro i
  by_cases hi : i < s.length
  · simp only [hasP1, List.any_eq_false] at h
    have := h i (List.mem_range.mpr hi)
    simpa using this
  · rw [List.drop_eq_nil_of_le (Nat.le_of_not_lt hi)]
    rfl

theorem of_hasP2_false (s : Str) (h : hasP2 s = false) : ∀ i, p2Head (s.drop i) = false := by
  intro i
  by_cases hi : i < s.length
  · simp only [hasP2, List.any_eq_false] at h
    have := h i (List.mem_range.mpr hi)
    simpa using this
  · rw [List.drop_eq_nil_of_le (Nat.le_of_not_lt hi)]
    rfl

theorem of_hasP3_false (s : Str) (h : hasP3 s = false) : ∀ i, p3At false s i = false := by
  intro i
  by_cases hi : i < s.length
  · simp only [hasP3, List.any_eq_false] at h
    have := h i (List.mem_range.mpr hi)
    simpa using this
  · simp only [p3At, List.drop_eq_nil_of_le (Nat.le_of_not_lt hi)]

/-! Verified properties. -/

/-- C2 counterexample: extract_quantity can return 0, on a line whose
explicit quantity is zero, so the result is not always at least 1. -/
theorem order_c2_cex : extract_quantity (strL "0 chai bia") = 0 := by decide

/-- C2 (amended): extract_quantity returns the nonnegative numeric value of
the first matched digit group, and returns exactly 1 when no quantity
pattern matches anywhere in the prepared text. -/
theorem order_c2_amended (text : Str) (h : hasQtyPattern text = false) :
    extract_quantity text = 1 := by
  unfold hasQtyPattern at h
  simp only [Bool.or_eq_false_iff] at h
  have e1 := qtyP1_eq_none _ (of_hasP1_false _ h.1.1)
  have e2 := qtyP2_eq_none _ (of_hasP2_false _ h.1.2)
  have e3 := qtyP3_eq_none _ _ (of_hasP3_false _ h.2)
  simp only [extract_quantity, e1, e2, e3]

/-- C2 witness: a line with no quantity pattern yields exactly 1. -/
theorem order_c2_witness :
    hasQtyPattern (strL "hello world") = false ∧ extract_quantity (strL "hello world") = 1 :=
  ⟨by decide, order_c2_amended _ (by decide)⟩

/-- C4 (confirmed): when the catalog load fails, process_order returns the
structured object with a top-level error and empty order items, never a
raised fault, and the result does not depend on the message, so no line
matching takes place. -/
theorem order_c4 (msg e : Str) :
    process_order msg (Except.error e) =
        Except.ok ⟨some (strL "Failed to load product data: " ++ e), [], []⟩ ∧
      process_order msg (Except.error e) = process_order [] (Except.error e) :=
  ⟨rfl, rfl⟩

/-- C1 counterexample: the comma splits the message into two segments, so
process_order yields two resolved order lines, not one, and the quantity-2
line carries the empty note, not cold. -/
theorem order_c1_cex :
    (process_order msgC1 (Except.ok catC1)).map
        (fun r => r.order_items.map (fun it => (it.quantity, it.note))) =
      Except.ok [(2, []), (1, strL "cold")] := by decide

/-- C1 (amended): the message yields exactly two resolved order lines, both
matching the fami soy milk product: the first with quantity 2 and empty
note, the second, produced by the note segment itself, with quantity 1 and
note cold. -/
theorem order_c1_amended :
    (process_order msgC1 (Except.ok catC1)).map (fun r => r.order_items) =
      Except.ok
        [⟨strL "Fami Soy Milk", strL "p1", 2, []⟩,
         ⟨strL "Fami Soy Milk", strL "p1", 1, strL "cold"⟩] := by decide

/-! Helper lemmas for the note-label scan. -/

theorem isPrefixOf_append_self (l t : Str) : l.isPrefixOf (l ++ t) = true := by
  induction l with
  | nil => cases t <;> rfl
  | cons c cs ih => simp [List.isPrefixOf, ih]

theorem find?_head {α : Type} (p : α → Bool) (a : α) (l : List α) (h : p a = true) :
    (a :: l).find? p = some a := by
  simp [List.find?, h]

theorem findLabelIdx_append (labels : List Str) (u v L : Str)
    (hne : v ≠ [])
    (hu : ∀ i, i < u.length →
      labels.any (fun M => M.isPrefixOf ((u ++ v).drop i)) = false)
    (hv : labels.find? (fun M => M.isPrefixOf v) = some L) :
    findLabelIdx labels (u ++ v) = some (u.length, L.length) := by
  induction u with
  | nil =>
    simp only [List.nil_append, List.length_nil]
    cases v with
    | nil => exact absurd rfl hne
    | cons c rest => rw [findLabelIdx, hv]
  | cons c u2 ih =>
    have h0 : labels.find? (fun M => M.isPrefixOf (c :: (u2 ++ v))) = none := by
      have ha := hu 0 (by simp)
      simp only [List.drop_zero, List.any_eq_false] at ha
      rw [List.find?_eq_none]
      intro M hM
      simpa using ha M hM
    have ih2 := ih (fun i hi => by simpa using hu (i + 1) (by simpa using Nat.succ_lt_succ hi))
    rw [show (c :: u2) ++ v = c :: (u2 ++ v) from rfl, findLabelIdx, h0]
    simp [ih2]

/-- C10 (confirmed): extract_note treats its labels as bare substrings with
an optional separator run: whenever the letters of the label note occur
anywhere, with no earlier pattern-1 label occurrence, the extracted note is
the trimmed text following that occurrence (up to a newline); in
particular, extract_note applied to one notebook returns book, a non-empty
note for a line with no explicit note label. -/
theorem order_c10 :
    (∀ pre post : Str,
      (∀ i, i < pre.length →
        noteLabels1.any
          (fun M => M.isPrefixOf ((lowerStr (pre ++ strL "note" ++ post)).drop i)) = false) →
      extract_note (pre ++ strL "note" ++ post) = noteTail post) ∧
    extract_note (strL "one notebook") = strL "book" := by
  constructor
  · intro pre post h
    have hnote : List.map pyLower (strL "note") = strL "note" := by decide
    have hlow : lowerStr (pre ++ strL "note" ++ post) =
        lowerStr pre ++ (strL "note" ++ lowerStr post) := by
      simp only [lowerStr, List.map_append, hnote, List.append_assoc]
    have hfind :
        noteLabels1.find? (fun M => M.isPrefixOf (strL "note" ++ lowerStr post)) =
          some (strL "note") := by
      rw [show noteLabels1 = strL "note" :: [strL "ghi chú", strL "lưu ý"] from rfl]
      exact find?_head _ _ _ (isPrefixOf_append_self _ _)
    have hul : (lowerStr pre).length = pre.length := by simp [lowerStr]
    have hscan := findLabelIdx_append noteLabels1 (lowerStr pre)
      (strL "note" ++ lowerStr post) (strL "note") (by simp [strL])
      (fun i hi => by
        have := h i (by simpa [hul] using hi)
        rw [hlow] at this
        exact this)
      hfind
    unfold extract_note
    rw [hlow, hscan]
    have hdrop :
        (pre ++ strL "note" ++ post).drop ((lowerStr pre).length + (strL "note").length) =
          post := by
      rw [hul, show pre.length + (strL "note").length = (pre ++ strL "note").length by simp]
      exact List.drop_left _ _
    show noteTail
        ((pre ++ strL "note" ++ post).drop ((lowerStr pre).length + (strL "note").length)) =
      noteTail post
    rw [hdrop]
  · decide

/-- C10 witness: at the concrete line one notebook the premise holds and
the conclusion evaluates to the note book. -/
theorem order_c10_witness :
    (∀ i, i < (strL "one ").length →
      noteLabels1.any
        (fun M =>
          M.isPrefixOf ((lowerStr (strL "one " ++ strL "note" ++ strL "book")).drop i)) =
        false) ∧
    extract_note (strL "one " ++ strL "note" ++ strL "book") = noteTail (strL "book") :=
  ⟨by decide, order_c10.1 (strL "one ") (strL "book") (by decide)⟩

/-! Helper lemmas for the matcher stages. -/

theorem findSomeNone {α β : Type} (f : α → Option β) (l : List α)
    (h : ∀ a ∈ l, f a = none) : l.findSome? f = none := by
  induction l with
  | nil => rfl
  | cons x xs ih =>
    rw [List.findSome?_cons, h x (by simp)]
    exact ih (fun a ha => h a (by simp [ha]))

theorem exactStage_of_lookup (t : Str) (idx : NameIndex) (pid : Str)
    (h : dictLookup idx t = some pid) : exactStage t idx = some (pid, t) := by
  induction idx with
  | nil => simp [dictLookup] at h
  | cons p rest ih =>
    cases p with
    | mk nm v =>
      by_cases hp : nm = t
      · subst hp
        simp [dictLookup, List.find?_cons] at h
        simp [exactStage, h]
      · have hd : decide (nm = t) = false := by simpa using hp
        simp only [dictLookup, List.find?_cons, hd] at h
        simp only [exactStage, if_neg hp]
        exact ih h

/-- C5 (confirmed): when the case-folded, trimmed phrase equals a name
index key (with that key's id) and contains none of the special-case
override substrings, find_best_product_match returns the key's id via the
exact-match stage: the special stage yields nothing, the exact stage
yields the result, and the later stages are never consulted. -/
theorem order_c5 (txt : Str) (idx : NameIndex) (data : Catalog) (pid : Str)
    (h1 : dictLookup idx (normalizeText txt) = some pid)
    (h2 : ∀ q ∈ specialMatches, isSubstr q.1 (normalizeText txt) = false) :
    find_best_product_match txt idx data = some (pid, normalizeText txt) ∧
      exactStage (normalizeText txt) idx = some (pid, normalizeText txt) ∧
      specialStage (normalizeText txt) data = none := by
  have hspec : specialStage (normalizeText txt) data = none := by
    unfold specialStage
    refine findSomeNone _ _ (fun q hq => ?_)
    rw [h2 q hq]
    rfl
  have hexact := exactStage_of_lookup (normalizeText txt) idx pid h1
  refine ⟨?_, hexact, hspec⟩
  simp only [find_best_product_match, hspec, hexact]

/-- C5 witness: the catalog name ginger tea cozy, used as the phrase,
resolves via the exact-match stage. -/
theorem order_c5_witness :
    dictLookup [(strL "ginger tea cozy", strL "g1")]
        (normalizeText (strL "ginger tea cozy")) = some (strL "g1") ∧
    (∀ q ∈ specialMatches, isSubstr q.1 (normalizeText (strL "ginger tea cozy")) = false) ∧
    find_best_product_match (strL "ginger tea cozy")
        [(strL "ginger tea cozy", strL "g1")]
        [(strL "g1", ⟨some (strL "Ginger Tea Cozy"), none, none⟩)] =
      some (strL "g1", normalizeText (strL "ginger tea cozy")) :=
  ⟨by decide, by decide,
    (order_c5 (strL "ginger tea cozy") [(strL "ginger tea cozy", strL "g1")]
      [(strL "g1", ⟨some (strL "Ginger Tea Cozy"), none, none⟩)] (strL "g1")
      (by decide) (by decide)).1⟩

/-! Helper lemmas for the name index. -/

theorem lookup_update_hit (d : NameIndex) (k v : Str)
    (hd : d.any (fun p => p.1 = k) = true) :
    dictLookup (d.map (fun p => if p.1 = k then (k, v) else p)) k = some v := by
  induction d with
  | nil => simp at hd
  | cons p rest ih =>
    by_cases hp : p.1 = k
    · simp [dictLookup, List.find?_cons, hp]
    · have hr : rest.any (fun p => p.1 = k) = true := by
        simpa [hp] using hd
      have := ih hr
      simpa [dictLookup, List.find?_cons, hp] using this

theorem lookup_update_miss (d : NameIndex) (k v k2 : Str) (hk : k2 ≠ k) :
    dictLookup (d.map (fun p => if p.1 = k then (k, v) else p)) k2 = dictLookup d k2 := by
  induction d with
  | nil => rfl
  | cons p rest ih =>
    rw [List.map_cons]
    by_cases hp : p.1 = k
    · have h1 : ¬(((k, v) : Str × Str).1 = k2) := fun hh => hk hh.symm
      have h2 : ¬(p.1 = k2) := by rw [hp]; exact fun hh => hk hh.symm
      rw [if_pos hp]
      unfold dictLookup
      rw [List.find?_cons_of_neg _ (by simpa using h1),
        List.find?_cons_of_neg _ (by simpa using h2)]
      exact ih
    · rw [if_neg hp]
      by_cases hq : p.1 = k2
      · unfold dictLookup
        rw [List.find?_cons_of_pos _ (by simpa using hq),
          List.find?_cons_of_pos _ (by simpa using hq)]
      · unfold dictLookup
        rw [List.find?_cons_of_neg _ (by simpa using hq),
          List.find?_cons_of_neg _ (by simpa using hq)]
        exact ih

theorem dictLookup_dictInsert (d : NameIndex) (k v k2 : Str) :
    dictLookup (dictInsert d k v) k2 = if k2 = k then some v else dictLookup d k2 := by
  unfold dictInsert
  by_cases hd : d.any (fun p => p.1 = k) = true
  · rw [if_pos hd]
    by_cases hk : k2 = k
    · subst hk
      rw [if_pos rfl]
      exact lookup_update_hit d k2 v hd
    · rw [if_neg hk]
      exact lookup_update_miss d k v k2 hk
  · have hdf : d.any (fun p => p.1 = k) = false := Bool.eq_false_iff.mpr hd
    rw [if_neg hd]
    have hnone : d.find? (fun p => p.1 = k) = none := by
      rw [List.find?_eq_none]
      intro p hp
      have hx := List.any_eq_false.mp hdf p hp
      simpa using hx
    by_cases hk : k2 = k
    · subst hk
      simp [dictLookup, List.find?_append, hnone, List.find?]
    · have hone : ([(k, v)].find? (fun p => p.1 = k2)) = none := by
        simp [List.find?, show ¬(k = k2) from fun hh => hk hh.symm]
      simp [dictLookup, List.find?_append, hone, hk]

theorem lookup_foldl_insert (k v : Str) :
    ∀ (rs : List (Str × Str)) (d : NameIndex),
      (∀ p ∈ rs, p.1 = k → p.2 = v) →
      ((∃ p ∈ rs, p.1 = k) ∨ dictLookup d k = some v) →
      dictLookup (rs.foldl (fun acc p => dictInsert acc p.1 p.2) d) k = some v := by
  intro rs
  induction rs with
  | nil =>
    intro d _ hex
    rcases hex with ⟨p, hp, _⟩ | hlook
    · exact absurd hp (List.not_mem_nil p)
    · exact hlook
  | cons q rest ih =>
    intro d hall hex
    rw [List.foldl_cons]
    by_cases hq : q.1 = k
    · have hv : q.2 = v := hall q (by simp) hq
      refine ih _ (fun p hp h => hall p (by simp [hp]) h) (Or.inr ?_)
      rw [dictLookup_dictInsert, if_pos hq.symm, hv]
    · rcases hex with ⟨p, hp, hpk⟩ | hlook
      · rcases List.mem_cons.mp hp with rfl | hp2
        · exact absurd hpk hq
        · exact ih _ (fun p hp h => hall p (by simp [hp]) h) (Or.inl ⟨p, hp2, hpk⟩)
      · refine ih _ (fun p hp h => hall p (by simp [hp]) h) (Or.inr ?_)
        rw [dictLookup_dictInsert, if_neg (fun hh => hq hh.symm)]
        exact hlook

theorem addProductNames_eq (d : NameIndex) (pid : Str) (info : ProductInfo) :
    addProductNames d pid info =
      (regsOf pid info).foldl (fun acc p => dictInsert acc p.1 p.2) d := by
  unfold addProductNames regsOf
  by_cases h1 : truthy info.name1 <;> by_cases h2 : truthy info.name2 <;>
    by_cases h3 : truthy info.name3 <;> simp [h1, h2, h3]

theorem create_eq_regs (data : Catalog) :
    create_product_name_to_id_mapping data =
      (registrations data).foldl (fun acc p => dictInsert acc p.1 p.2) [] := by
  suffices h : ∀ d, data.foldl (fun acc p => addProductNames acc p.1 p.2) d =
      (registrations data).foldl (fun acc p => dictInsert acc p.1 p.2) d from h []
  induction data with
  | nil => intro d; rfl
  | cons q rest ih =>
    intro d
    rw [List.foldl_cons, registrations, List.flatMap_cons, List.foldl_append,
      addProductNames_eq]
    exact ih _

theorem regs_mem_name1 (data : Catalog) (pid : Str) (info : ProductInfo) (n : Str)
    (hmem : (pid, info) ∈ data) (hn : info.name1 = some n) (hne : n ≠ []) :
    (lowerStr n, pid) ∈ registrations data := by
  unfold registrations
  rw [List.mem_flatMap]
  refine ⟨(pid, info), hmem, ?_⟩
  unfold regsOf
  have ht : truthy info.name1 = true := by
    simp [truthy, hn, List.isEmpty_iff, hne]
  simp [ht, hn]
  exact Or.inl (hn ▸ ht)

/-- C6 counterexample: the entry p1 has the non-empty primary name Tea, yet
the index maps the case-folded name tea to p2, the later colliding entry,
so the round-trip fails for p1. -/
theorem order_c6_cex :
    (strL "p1", (⟨some (strL "Tea"), none, none⟩ : ProductInfo)) ∈ catC6 ∧
      strL "Tea" ≠ [] ∧
      dictLookup (create_product_name_to_id_mapping catC6) (lowerStr (strL "Tea")) =
        some (strL "p2") ∧
      strL "p2" ≠ strL "p1" := by decide

/-- C6 (amended): for every catalog entry with a non-empty primary name,
the index maps the case-folded primary name to that entry's id provided no
other registration of the same case-folded name carries a different id
(registrations are last-writer-wins, so a later colliding write of another
product overrides the round-trip). -/
theorem order_c6_amended (data : Catalog) (pid : Str) (info : ProductInfo) (n : Str)
    (hmem : (pid, info) ∈ data) (hn : info.name1 = some n) (hne : n ≠ [])
    (huniq : ∀ p ∈ registrations data, p.1 = lowerStr n → p.2 = pid) :
    dictLookup (create_product_name_to_id_mapping data) (lowerStr n) = some pid := by
  rw [create_eq_regs]
  exact lookup_foldl_insert _ _ _ _ huniq
    (Or.inl ⟨(lowerStr n, pid), regs_mem_name1 data pid info n hmem hn hne, rfl⟩)

/-- C6 witness: a collision-free catalog round-trips its folded primary
name to the entry's id. -/
theorem order_c6_witness :
    (strL "p1", (⟨some (strL "Tea"), none, none⟩ : ProductInfo)) ∈ catW6 ∧
      (∀ p ∈ registrations catW6, p.1 = lowerStr (strL "Tea") → p.2 = strL "p1") ∧
      dictLookup (create_product_name_to_id_mapping catW6) (lowerStr (strL "Tea")) =
        some (strL "p1") :=
  ⟨by decide, by decide,
    order_c6_amended catW6 (strL "p1") ⟨some (strL "Tea"), none, none⟩ (strL "Tea")
      (by decide) rfl (by decide) (by decide)⟩

/-! Helper lemmas for the stage pipeline on the empty phrase. -/

theorem filterMapNone {α β : Type} (f : α → Option β) (l : List α)
    (h : ∀ a ∈ l, f a = none) : l.filterMap f = [] := by
  induction l with
  | nil => rfl
  | cons x xs ih =>
    rw [List.filterMap_cons, h x (by simp)]
    exact ih (fun a ha => h a (by simp [ha]))

theorem filterMap_all_some {α β : Type} (f : α → Option β) (g : α → β) (l : List α)
    (h : ∀ a, f a = some (g a)) : l.filterMap f = l.map g := by
  induction l with
  | nil => rfl
  | cons x xs ih => rw [List.filterMap_cons, h x, List.map_cons, ih]

theorem flatMapNilAux {α β : Type} (l : List α) (f : α → List β) (h : ∀ a, f a = []) :
    l.flatMap f = [] := by
  induction l with
  | nil => rfl
  | cons x xs ih =>
    rw [List.flatMap_cons, h x, List.nil_append]
    exact ih

theorem exactStage_none (t : Str) (idx : NameIndex) (h : ∀ p ∈ idx, p.1 ≠ t) :
    exactStage t idx = none := by
  induction idx with
  | nil => rfl
  | cons p rest ih =>
    cases p with
    | mk nm v =>
      simp only [exactStage]
      rw [if_neg (h (nm, v) (by simp))]
      exact ih (fun p hp => h p (by simp [hp]))

theorem pickBestQ_mem {l : List (Str × Str × Sc)} {b : Str × Str × Sc}
    (h : pickBestQ l = some b) : b ∈ l := by
  induction l with
  | nil => cases h
  | cons x xs ih =>
    rw [pickBestQ] at h
    cases hx : pickBestQ xs with
    | none =>
      rw [hx] at h
      cases h
      simp
    | some c =>
      rw [hx] at h
      simp only [Option.some.injEq] at h
      by_cases hb : Sc.blt x.2.2 c.2.2
      · rw [if_pos hb] at h
        subst h
        exact List.mem_cons_of_mem _ (ih hx)
      · rw [if_neg hb] at h
        subst h
        simp

theorem pickBestQ_head (x : Str × Str × Sc) (xs : List (Str × Str × Sc))
    (h : ∀ y ∈ xs, Sc.blt x.2.2 y.2.2 = false) : pickBestQ (x :: xs) = some x := by
  rw [pickBestQ]
  cases hx : pickBestQ xs with
  | none => rfl
  | some c => simp [h c (pickBestQ_mem hx)]

theorem longestMatch_nil_left (nm : Str) : longestMatch [] nm = (0, 0, 0) := by
  simp [longestMatch]

theorem matchingSize_nil_left (nm : Str) : matchingSize [] nm = 0 := by
  unfold matchingSize
  cases hn : (([] : Str).length + nm.length) with
  | zero => rfl
  | succ k => simp [matchingSizeAux, longestMatch_nil_left]

theorem fuzzy_skip_of_empty (nm : Str) (h : nm ≠ []) :
    Sc.blt ⟨3, 5, by omega⟩ (pySim [] nm) = false := by
  have h0 : 0 < nm.length := List.length_pos.mpr h
  unfold pySim
  rw [dif_neg (by simpa using Nat.pos_iff_ne_zero.mp h0)]
  simp [Sc.blt, matchingSize_nil_left]

theorem keywordStage_empty (l : NameIndex) (hl : l ≠ []) :
    keywordStage [] l = some ((l.head hl).2, (l.head hl).1) := by
  cases l with
  | nil => exact absurd rfl hl
  | cons q rest =>
    simp only [keywordStage]
    have hfm := filterMap_all_some
      (fun (p : Str × Str) =>
        if ((List.filter (fun w => decide (2 < List.length w)) (keyWordsOf ([] : Str))).all
            (fun w => isSubstr w p.1)) = true then
          some (p.2, p.1,
            Sc.ofNat
              (if (isSubstr (strL "cozy") ([] : Str) && isSubstr (strL "cozy") p.1) = true
               then 50 else 20))
        else none)
      (fun (p : Str × Str) => (p.2, p.1, Sc.ofNat 20))
      (q :: rest)
      (fun p => rfl)
    rw [hfm, List.map_cons]
    have hall : ∀ y ∈ rest.map (fun (p : Str × Str) => (p.2, p.1, Sc.ofNat 20)),
        Sc.blt ((q.2, q.1, Sc.ofNat 20) : Str × Str × Sc).2.2 y.2.2 = false := by
      intro y hy
      rcases List.mem_map.mp hy with ⟨p, _, rfl⟩
      show Sc.blt (Sc.ofNat 20) (Sc.ofNat 20) = false
      decide
    rw [pickBestQ_head _ _ hall]
    rfl

/-- C9 (confirmed): on the empty phrase with a non-empty name index that
has no empty key, resolution does not fail: every earlier stage yields
nothing, the all-keywords stage accepts every name vacuously with score 20,
and the first index entry is returned. -/
theorem order_c9 (idx : NameIndex) (data : Catalog) (hne : idx ≠ [])
    (hkeys : ∀ p ∈ idx, p.1 ≠ ([] : Str)) :
    find_best_product_match [] idx data = some ((idx.head hne).2, (idx.head hne).1) ∧
      keywordStage [] idx = some ((idx.head hne).2, (idx.head hne).1) := by
  have hnorm : normalizeText [] = [] := rfl
  have hspec : specialStage [] data = none := by
    refine findSomeNone _ _ (fun q hq => ?_)
    simp only [specialMatches, List.mem_cons, List.not_mem_nil, or_false] at hq
    rcases hq with rfl | rfl | rfl <;> rfl
  have hexact : exactStage [] idx = none := exactStage_none _ _ hkeys
  have hfuzzy : fuzzyStage [] idx = none := by
    have hpot := filterMapNone
      (fun (p : Str × Str) =>
        if Sc.blt ⟨3, 5, by omega⟩ (pySim [] p.1) then
          some (p.2, p.1, (pySim [] p.1).mulNat 10)
        else none)
      idx
      (fun p hp => by simp [fuzzy_skip_of_empty p.1 (hkeys p hp)])
    simp only [fuzzyStage]
    rw [hpot]
    rfl
  have hbrand : brandStage [] idx = none := by
    simp only [brandStage]
    rw [flatMapNilAux idx
      (fun (p : Str × Str) =>
        (importantBrands.filter (fun b => isSubstr b [])).filterMap
          (fun b => if isSubstr b p.1 then some (p.2, p.1, brandScoreOf [] p.1 b) else none))
      (fun p => rfl)]
    rfl
  have hkw := keywordStage_empty idx hne
  refine ⟨?_, hkw⟩
  simp only [find_best_product_match, hnorm, hspec, hexact, hfuzzy, hbrand, hkw]

/-- C9 witness: a one-entry index resolves the empty phrase to its entry. -/
theorem order_c9_witness :
    ([(strL "bia", strL "p1")] : NameIndex) ≠ [] ∧
      (∀ p ∈ ([(strL "bia", strL "p1")] : NameIndex), p.1 ≠ ([] : Str)) ∧
      find_best_product_match [] [(strL "bia", strL "p1")] [] =
        some (strL "p1", strL "bia") :=
  ⟨by decide, by decide,
    (order_c9 [(strL "bia", strL "p1")] [] (by decide) (by decide)).1⟩

/-! Order lemmas for score values and the general-stage selection. -/

theorem Sc.leP_refl (a : Sc) : Sc.leP a a := le_refl _

theorem Sc.leP_of_blt_false {a b : Sc} (h : Sc.blt a b = false) : Sc.leP b a := by
  unfold Sc.blt at h
  unfold Sc.leP
  exact not_lt.mp (by simpa using h)

theorem Sc.leP_of_blt_true {a b : Sc} (h : Sc.blt a b = true) : Sc.leP a b := by
  unfold Sc.blt at h
  unfold Sc.leP
  exact le_of_lt (by simpa using h)

theorem Sc.leP_of_nonpos_pos {a b : Sc} (ha : a.posB = false) (hb : b.posB = true) :
    Sc.leP a b := by
  unfold Sc.posB at ha hb
  unfold Sc.leP
  have ha2 : a.num ≤ 0 := not_lt.mp (by simpa using ha)
  have hb2 : 0 < b.num := by simpa using hb
  have hda : (0 : Int) < (a.den : Int) := by exact_mod_cast a.dpos
  have hdb : (0 : Int) < (b.den : Int) := by exact_mod_cast b.dpos
  have h1 : a.num * (b.den : Int) ≤ 0 := mul_nonpos_iff.mpr (Or.inr ⟨ha2, le_of_lt hdb⟩)
  have h2 : (0 : Int) < b.num * (a.den : Int) := mul_pos hb2 hda
  exact le_trans h1 (le_of_lt h2)

theorem Sc.leP_trans {a b c : Sc} (h1 : Sc.leP a b) (h2 : Sc.leP b c) : Sc.leP a c := by
  unfold Sc.leP at h1 h2 ⊢
  have hb : (0 : Int) < (b.den : Int) := by exact_mod_cast b.dpos
  have hc : (0 : Int) ≤ (c.den : Int) := Int.natCast_nonneg _
  have ha : (0 : Int) ≤ (a.den : Int) := Int.natCast_nonneg _
  have h1c := mul_le_mul_of_nonneg_right h1 hc
  have h2a := mul_le_mul_of_nonneg_right h2 ha
  have hch : a.num * (b.den : Int) * (c.den : Int) ≤ c.num * (b.den : Int) * (a.den : Int) := by
    calc a.num * (b.den : Int) * (c.den : Int)
        ≤ b.num * (a.den : Int) * (c.den : Int) := h1c
      _ = b.num * (c.den : Int) * (a.den : Int) := by ring
      _ ≤ c.num * (b.den : Int) * (a.den : Int) := h2a
  have hfin : a.num * (c.den : Int) * (b.den : Int) ≤ c.num * (a.den : Int) * (b.den : Int) := by
    calc a.num * (c.den : Int) * (b.den : Int)
        = a.num * (b.den : Int) * (c.den : Int) := by ring
      _ ≤ c.num * (b.den : Int) * (a.den : Int) := hch
      _ = c.num * (a.den : Int) * (b.den : Int) := by ring
  exact le_of_mul_le_mul_right hfin hb

theorem generalStage_eq_pickGS (t : Str) (idx : NameIndex) :
    generalStage t idx = (pickGS t idx).map (fun b => (b.1, b.2.1)) := rfl

theorem pickGS_cons (t : Str) (x : Str × Str) (rest : NameIndex) :
    pickGS t (x :: rest) =
      if (generalScore t x.1).posB then
        (match pickGS t rest with
         | none => some (x.2, x.1, generalScore t x.1)
         | some b =>
           some (if Sc.blt (generalScore t x.1) b.2.2 then b
                 else (x.2, x.1, generalScore t x.1)))
      else pickGS t rest := by
  unfold pickGS
  rw [List.filterMap_cons]
  by_cases hx : (generalScore t x.1).posB
  · simp only [hx, if_true]
    rw [pickBestQ]
  · simp only [hx, Bool.false_eq_true, if_false]

theorem genAux (t : Str) (idx : NameIndex) :
    (pickGS t idx = none → ∀ p ∈ idx, (generalScore t p.1).posB = false) ∧
      ∀ b, pickGS t idx = some b →
        b.2.2 = generalScore t b.2.1 ∧ (generalScore t b.2.1).posB = true ∧
          (∀ p ∈ idx, Sc.leP (generalScore t p.1) b.2.2) ∧
          ∃ pre suf, idx = pre ++ (b.2.1, b.1) :: suf ∧
            ∀ p ∈ pre, (generalScore t p.1).posB = true →
              Sc.blt (generalScore t p.1) b.2.2 = true := by
  induction idx with
  | nil =>
    constructor
    · intro _ p hp
      exact absurd hp (List.not_mem_nil p)
    · intro b hb
      cases hb
  | cons x rest ih =>
    rw [pickGS_cons]
    by_cases hx : (generalScore t x.1).posB
    · simp only [hx, if_true]
      cases hrest : pickGS t rest with
      | none =>
        constructor
        · intro hcontra
          cases hcontra
        · intro b hb
          cases hb
          refine ⟨rfl, hx, ?_, [], rest, rfl, by simp⟩
          intro p hp
          rcases List.mem_cons.mp hp with rfl | hp2
          · exact Sc.leP_refl _
          · exact Sc.leP_of_nonpos_pos (ih.1 hrest p hp2) hx
      | some c =>
        have ihc := ih.2 c hrest
        by_cases hblt : Sc.blt (generalScore t x.1) c.2.2
        · simp only [hblt, if_true]
          constructor
          · intro hcontra
            cases hcontra
          · intro b hb
            cases hb
            refine ⟨ihc.1, ihc.2.1, ?_, ?_⟩
            · intro p hp
              rcases List.mem_cons.mp hp with rfl | hp2
              · exact Sc.leP_of_blt_true hblt
              · exact ihc.2.2.1 p hp2
            · rcases ihc.2.2.2 with ⟨pre, suf, heq, hpre⟩
              refine ⟨x :: pre, suf, by rw [heq]; exact (List.cons_append _ _ _).symm, ?_⟩
              intro p hp
              rcases List.mem_cons.mp hp with rfl | hp2
              · intro _
                exact hblt
              · exact hpre p hp2
        · simp only [hblt, Bool.false_eq_true, if_false]
          constructor
          · intro hcontra
            cases hcontra
          · intro b hb
            cases hb
            refine ⟨rfl, hx, ?_, [], rest, rfl, by simp⟩
            intro p hp
            rcases List.mem_cons.mp hp with rfl | hp2
            · exact Sc.leP_refl _
            · exact Sc.leP_trans (ihc.2.2.1 p hp2)
                (Sc.leP_of_blt_false (Bool.eq_false_iff.mpr hblt))
    · simp only [hx, Bool.false_eq_true, if_false]
      constructor
      · intro hnone p hp
        rcases List.mem_cons.mp hp with rfl | hp2
        · exact Bool.eq_false_iff.mpr hx
        · exact ih.1 hnone p hp2
      · intro b hb
        have ihb := ih.2 b hb
        refine ⟨ihb.1, ihb.2.1, ?_, ?_⟩
        · intro p hp
          rcases List.mem_cons.mp hp with rfl | hp2
          · exact Sc.leP_of_nonpos_pos (Bool.eq_false_iff.mpr hx) (by rw [ihb.1]; exact ihb.2.1)
          · exact ihb.2.2.1 p hp2
        · rcases ihb.2.2.2 with ⟨pre, suf, heq, hpre⟩
          refine ⟨x :: pre, suf, by rw [heq]; exact (List.cons_append _ _ _).symm, ?_⟩
          intro p hp
          rcases List.mem_cons.mp hp with rfl | hp2
          · intro hcontra
            exact absurd hcontra (Bool.eq_false_iff.mp (Bool.eq_false_iff.mpr hx))
          · exact hpre p hp2

/-- C8 (confirmed): in the general weighted-scoring stage only names with
strictly positive score are candidates (when the stage yields nothing every
score is nonpositive, and a returned name scores positively), the returned
name has the maximal score over the index, and every earlier index entry
with positive score scores strictly less, so equal-score ties go to the
first entry in catalog-index iteration order. -/
theorem order_c8 (t : Str) (idx : NameIndex) :
    (generalStage t idx = none → ∀ p ∈ idx, (generalScore t p.1).posB = false) ∧
      ∀ pid nm, generalStage t idx = some (pid, nm) →
        (generalScore t nm).posB = true ∧
          (∀ p ∈ idx, Sc.leP (generalScore t p.1) (generalScore t nm)) ∧
          ∃ pre suf, idx = pre ++ (nm, pid) :: suf ∧
            ∀ p ∈ pre, (generalScore t p.1).posB = true →
              Sc.blt (generalScore t p.1) (generalScore t nm) = true := by
  constructor
  · intro hnone
    rw [generalStage_eq_pickGS] at hnone
    exact (genAux t idx).1 (Option.map_eq_none'.mp hnone)
  · intro pid nm hsome
    rw [generalStage_eq_pickGS] at hsome
    rcases Option.map_eq_some'.mp hsome with ⟨b, hb, hproj⟩
    have hx := (genAux t idx).2 b hb
    have h1 : b.1 = pid := congrArg Prod.fst hproj
    have h2 : b.2.1 = nm := congrArg Prod.snd hproj
    subst h1
    subst h2
    refine ⟨hx.2.1, ?_, ?_⟩
    · intro p hp
      have hle := hx.2.2.1 p hp
      rwa [hx.1] at hle
    · rcases hx.2.2.2 with ⟨pre, suf, heq, hpre⟩
      refine ⟨pre, suf, heq, ?_⟩
      intro p hp hpos
      have hlt := hpre p hp hpos
      rwa [hx.1] at hlt

/-- C8 witness: two names scoring equally (4 each against the phrase xy);
the first index entry is returned, its score is positive and maximal, and
the decomposition has an empty earlier segment. -/
theorem order_c8_witness :
    (generalScore (strL "xy") (strL "ax")).posB = true ∧
      (∀ p ∈ idxW8,
        Sc.leP (generalScore (strL "xy") p.1) (generalScore (strL "xy") (strL "ax"))) ∧
      ∃ pre suf, idxW8 = pre ++ (strL "ax", strL "p1") :: suf ∧
        ∀ p ∈ pre, (generalScore (strL "xy") p.1).posB = true →
          Sc.blt (generalScore (strL "xy") p.1) (generalScore (strL "xy") (strL "ax")) = true :=
  (order_c8 (strL "xy") idxW8).2 (strL "p1") (strL "ax") (by decide)

theorem processLinesAux_ok_shape (idx : NameIndex) (data : Catalog) :
    ∀ (ls : List Str) (its : List OrderItem) (tr : List LineDebug),
      processLinesAux idx data ls = .ok (its, tr) →
      its = ls.filterMap (lineItem? idx data) ∧ tr = ls.map (lineDbgOf idx data) := by
  intro ls
  induction ls with
  | nil =>
    intro its tr h
    simp only [processLinesAux, Except.ok.injEq, Prod.mk.injEq] at h
    exact ⟨h.1.symm, h.2.symm⟩
  | cons l rest ih =>
    intro its tr h
    cases hpl : processLine idx data l with
    | error e =>
      rw [processLinesAux, hpl] at h
      cases h
    | ok pr =>
      obtain ⟨it, d⟩ := pr
      cases haux : processLinesAux idx data rest with
      | error e =>
        rw [processLinesAux, hpl, haux] at h
        cases h
      | ok pr2 =>
        obtain ⟨its2, tr2⟩ := pr2
        rw [processLinesAux, hpl, haux] at h
        simp only [Except.ok.injEq, Prod.mk.injEq] at h
        have hih := ih its2 tr2 haux
        constructor
        · rw [← h.1, hih.1]
          cases it <;> simp [List.filterMap_cons, lineItem?, hpl]
        · rw [← h.2, hih.2]
          simp [List.map_cons, lineDbgOf, hpl]

/-- C7 (confirmed): under a completed run, the order items are exactly the
per-line contributions in order and every processed line appears in the
trace; a line whose cleaned phrase resolves to no product contributes no
order item and its trace record carries a null matched product id, while
all other lines are processed as usual. -/
theorem order_c7 (msg : Str) (data : Catalog) (its : List OrderItem) (tr : List LineDebug)
    (h : processOrderCore msg data = .ok (its, tr)) :
    its = (plinesOf msg).filterMap
        (lineItem? (create_product_name_to_id_mapping data) data) ∧
      tr = (plinesOf msg).map (lineDbgOf (create_product_name_to_id_mapping data) data) ∧
      ∀ l : Str,
        find_best_product_match (cleanedProductText l)
            (create_product_name_to_id_mapping data) data = none →
          lineItem? (create_product_name_to_id_mapping data) data l = none ∧
            (lineDbgOf (create_product_name_to_id_mapping data) data l).matched_product_id =
              none := by
  have hs := processLinesAux_ok_shape _ _ (plinesOf msg) its tr h
  refine ⟨hs.1, hs.2, ?_⟩
  intro l hfind
  have hpl : processLine (create_product_name_to_id_mapping data) data l =
      .ok (none, ⟨l, extract_quantity l, extract_note l, cleanedProductText l, none, none⟩) := by
    simp only [processLine, hfind]
  constructor
  · simp [lineItem?, hpl]
  · simp [lineDbgOf, hpl]

/-- C7 witness: the first segment resolves to no product and is omitted
from the items yet traced with a null matched id; the second segment is
still resolved. -/
theorem order_c7_witness :
    processOrderCore msgW7 dataW7 = Except.ok (itsW7, trW7) ∧
      itsW7 = (plinesOf msgW7).filterMap
        (lineItem? (create_product_name_to_id_mapping dataW7) dataW7) ∧
      lineItem? (create_product_name_to_id_mapping dataW7) dataW7 (strL "xyzqwk") = none ∧
      (lineDbgOf (create_product_name_to_id_mapping dataW7) dataW7
          (strL "xyzqwk")).matched_product_id = none := by
  have hcore : processOrderCore msgW7 dataW7 = Except.ok (itsW7, trW7) := by decide
  have hmain := order_c7 msgW7 dataW7 itsW7 trW7 hcore
  have hline := hmain.2.2 (strL "xyzqwk") (by decide)
  exact ⟨hcore, hmain.1, hline.1, hline.2⟩

/-! Membership lemmas: every matched product id is a catalog key. -/

theorem mem_of_cond_filterMap {l : NameIndex} {cond : Str × Str → Bool}
    {sc : Str × Str → Sc} {b : Str × Str × Sc}
    (hb : b ∈ l.filterMap (fun p => if cond p then some (p.2, p.1, sc p) else none)) :
    (b.2.1, b.1) ∈ l := by
  rcases List.mem_filterMap.mp hb with ⟨p, hp, hfp⟩
  by_cases hc : cond p
  · rw [if_pos hc] at hfp
    cases hfp
    exact hp
  · rw [if_neg hc] at hfp
    cases hfp

theorem specialStage_haskey {t : Str} {data : Catalog} {pid nm : Str}
    (h : specialStage t data = some (pid, nm)) : dictHasKey data pid = true := by
  unfold specialStage at h
  rcases List.exists_of_findSome?_eq_some h with ⟨q, hq, hfq⟩
  by_cases hc : (isSubstr q.1 t && dictHasKey data q.2.1) = true
  · rw [if_pos hc] at hfq
    cases hfq
    rw [Bool.and_eq_true] at hc
    exact hc.2
  · rw [if_neg hc] at hfq
    cases hfq

theorem exactStage_mem {t : Str} {idx : NameIndex} {pid nm : Str}
    (h : exactStage t idx = some (pid, nm)) : (nm, pid) ∈ idx := by
  induction idx with
  | nil => cases h
  | cons p rest ih =>
    cases p with
    | mk nm0 v =>
      simp only [exactStage] at h
      by_cases hc : nm0 = t
      · rw [if_pos hc] at h
        cases h
        exact List.mem_cons_self _ _
      · rw [if_neg hc] at h
        exact List.mem_cons_of_mem _ (ih h)

theorem fuzzyStage_mem {t : Str} {idx : NameIndex} {pid nm : Str}
    (h : fuzzyStage t idx = some (pid, nm)) : (nm, pid) ∈ idx := by
  simp only [fuzzyStage] at h
  rcases hmatch : pickBestQ (idx.filterMap (fun p =>
      if Sc.blt ⟨3, 5, by omega⟩ (pySim t p.1) then
        some (p.2, p.1, (pySim t p.1).mulNat 10)
      else none)) with _ | b
  · simp only [hmatch] at h
    cases h
  · simp only [hmatch] at h
    by_cases h8 : Sc.blt (Sc.ofNat 8) b.2.2
    · rw [if_pos h8] at h
      cases h
      exact mem_of_cond_filterMap (pickBestQ_mem hmatch)
    · rw [if_neg h8] at h
      cases h

theorem brandStage_mem {t : Str} {idx : NameIndex} {pid nm : Str}
    (h : brandStage t idx = some (pid, nm)) : (nm, pid) ∈ idx := by
  simp only [brandStage] at h
  rcases Option.map_eq_some'.mp h with ⟨b, hb, hproj⟩
  have hmem := pickBestQ_mem hb
  rcases List.mem_flatMap.mp hmem with ⟨p, hp, hbp⟩
  rcases List.mem_filterMap.mp hbp with ⟨br, _, hf⟩
  by_cases hc : isSubstr br p.1 = true
  · rw [if_pos hc] at hf
    cases hf
    cases hproj
    exact hp
  · rw [if_neg hc] at hf
    cases hf

theorem keywordStage_mem {t : Str} {idx : NameIndex} {pid nm : Str}
    (h : keywordStage t idx = some (pid, nm)) : (nm, pid) ∈ idx := by
  simp only [keywordStage] at h
  rcases Option.map_eq_some'.mp h with ⟨b, hb, hproj⟩
  cases hproj
  exact mem_of_cond_filterMap (pickBestQ_mem hb)

theorem generalStage_mem {t : Str} {idx : NameIndex} {pid nm : Str}
    (h : generalStage t idx = some (pid, nm)) : (nm, pid) ∈ idx := by
  simp only [generalStage] at h
  rcases Option.map_eq_some'.mp h with ⟨b, hb, hproj⟩
  cases hproj
  exact mem_of_cond_filterMap (pickBestQ_mem hb)

theorem find_mem {txt : Str} {idx : NameIndex} {data : Catalog} {pid nm : Str}
    (h : find_best_product_match txt idx data = some (pid, nm)) :
    (nm, pid) ∈ idx ∨ dictHasKey data pid = true := by
  simp only [find_best_product_match] at h
  cases h1 : specialStage (normalizeText txt) data with
  | some r =>
    simp only [h1] at h
    have hr : r = (pid, nm) := by simpa using h
    exact Or.inr (specialStage_haskey (hr ▸ h1))
  | none =>
    simp only [h1] at h
    cases h2 : exactStage (normalizeText txt) idx with
    | some r =>
      simp only [h2] at h
      have hr : r = (pid, nm) := by simpa using h
      exact Or.inl (exactStage_mem (hr ▸ h2))
    | none =>
      simp only [h2] at h
      cases h3 : fuzzyStage (normalizeText txt) idx with
      | some r =>
        simp only [h3] at h
        have hr : r = (pid, nm) := by simpa using h
        exact Or.inl (fuzzyStage_mem (hr ▸ h3))
      | none =>
        simp only [h3] at h
        cases h4 : brandStage (normalizeText txt) idx with
        | some r =>
          simp only [h4] at h
          have hr : r = (pid, nm) := by simpa using h
          exact Or.inl (brandStage_mem (hr ▸ h4))
        | none =>
          simp only [h4] at h
          cases h5 : keywordStage (normalizeText txt) idx with
          | some r =>
            simp only [h5] at h
            have hr : r = (pid, nm) := by simpa using h
            exact Or.inl (keywordStage_mem (hr ▸ h5))
          | none =>
            simp only [h5] at h
            exact Or.inl (generalStage_mem h)

/-! Totality of the per-line loop when every catalog entry has a primary
name field. -/

theorem mem_insert_val {d : NameIndex} {k v : Str} {p : Str × Str}
    (hp : p ∈ dictInsert d k v) : p ∈ d ∨ p.2 = v := by
  unfold dictInsert at hp
  by_cases hd : d.any (fun q => q.1 = k) = true
  · rw [if_pos hd] at hp
    rcases List.mem_map.mp hp with ⟨q, hq, hfq⟩
    by_cases hc : q.1 = k
    · rw [if_pos hc] at hfq
      rw [← hfq]
      exact Or.inr rfl
    · rw [if_neg hc] at hfq
      rw [← hfq]
      exact Or.inl hq
  · rw [if_neg hd] at hp
    rcases List.mem_append.mp hp with h | h
    · exact Or.inl h
    · simp only [List.mem_singleton] at h
      rw [h]
      exact Or.inr rfl

theorem mem_foldl_insert {rs : List (Str × Str)} :
    ∀ {d : NameIndex} {p : Str × Str},
      p ∈ rs.foldl (fun acc r => dictInsert acc r.1 r.2) d →
      p ∈ d ∨ ∃ r ∈ rs, p.2 = r.2 := by
  induction rs with
  | nil => intro d p hp; exact Or.inl hp
  | cons r rest ih =>
    intro d p hp
    rw [List.foldl_cons] at hp
    rcases ih hp with h | ⟨r2, hr2, he⟩
    · rcases mem_insert_val h with h2 | h2
      · exact Or.inl h2
      · exact Or.inr ⟨r, by simp, h2⟩
    · exact Or.inr ⟨r2, by simp [hr2], he⟩

theorem regsOf_val (pid : Str) (info : ProductInfo) : ∀ r ∈ regsOf pid info, r.2 = pid := by
  intro r hr
  unfold regsOf at hr
  have hx : ∀ (c : Bool) (k : Str), r ∈ (if c then [(k, pid)] else []) → r.2 = pid := by
    intro c k h
    cases c with
    | true =>
      simp only [if_true, List.mem_singleton] at h
      rw [h]
    | false => simp at h
  rcases List.mem_append.mp hr with h | h
  · rcases List.mem_append.mp h with h2 | h2
    · exact hx _ _ h2
    · exact hx _ _ h2
  · exact hx _ _ h

theorem registrations_val (data : Catalog) :
    ∀ r ∈ registrations data, ∃ q ∈ data, q.1 = r.2 := by
  intro r hr
  rcases List.mem_flatMap.mp hr with ⟨q, hq, hrq⟩
  exact ⟨q, hq, (regsOf_val q.1 q.2 r hrq).symm⟩

theorem create_values (data : Catalog) :
    ∀ p ∈ create_product_name_to_id_mapping data, ∃ q ∈ data, q.1 = p.2 := by
  intro p hp
  rw [create_eq_regs] at hp
  rcases mem_foldl_insert hp with h | ⟨r, hr, he⟩
  · exact absurd h (List.not_mem_nil p)
  · rcases registrations_val data r hr with ⟨q, hq, he2⟩
    exact ⟨q, hq, by rw [he2, he]⟩

theorem hasKey_of_values {data : Catalog} {pid : Str} (h : ∃ q ∈ data, q.1 = pid) :
    dictHasKey data pid = true := by
  unfold dictHasKey
  rw [List.find?_isSome]
  rcases h with ⟨q, hq, he⟩
  exact ⟨q, hq, by simp [he]⟩

theorem processLine_ok (idx : NameIndex) (data : Catalog) (l : Str)
    (hvals : ∀ p ∈ idx, dictHasKey data p.2 = true)
    (hnames : ∀ q ∈ data, q.2.name1.isSome = true) :
    ∃ r, processLine idx data l = .ok r := by
  cases hf : find_best_product_match (cleanedProductText l) idx data with
  | none =>
    exact ⟨(none, ⟨l, extract_quantity l, extract_note l, cleanedProductText l, none, none⟩),
      by simp only [processLine, hf]⟩
  | some pr =>
    obtain ⟨pid, nm⟩ := pr
    have hkey : dictHasKey data pid = true := by
      rcases find_mem hf with hm | hk
      · exact hvals (nm, pid) hm
      · exact hk
    rcases Option.isSome_iff_exists.mp (by unfold dictHasKey at hkey; exact hkey) with ⟨q, hq⟩
    have hqmem : q ∈ data := List.mem_of_find?_eq_some hq
    rcases Option.isSome_iff_exists.mp (hnames q hqmem) with ⟨n1, hn1⟩
    have hdg : dictGet data pid = some q.2 := by
      unfold dictGet
      rw [hq]
      rfl
    by_cases hpid : pid.isEmpty
    · exact ⟨(none,
        ⟨l, extract_quantity l, extract_note l, cleanedProductText l, some pid, some nm⟩),
        by simp only [processLine, hf, hpid, if_true]⟩
    · have hpf : pid.isEmpty = false := Bool.eq_false_iff.mpr hpid
      exact ⟨(some ⟨n1, pid, extract_quantity l, extract_note l⟩,
        ⟨l, extract_quantity l, extract_note l, cleanedProductText l, some pid, some nm⟩),
        by simp only [processLine, hf, hpf, Bool.false_eq_true, if_false, hdg, hn1]⟩

theorem processLinesAux_ok (idx : NameIndex) (data : Catalog)
    (hvals : ∀ p ∈ idx, dictHasKey data p.2 = true)
    (hnames : ∀ q ∈ data, q.2.name1.isSome = true) :
    ∀ ls : List Str, ∃ r, processLinesAux idx data ls = .ok r := by
  intro ls
  induction ls with
  | nil => exact ⟨([], []), rfl⟩
  | cons l rest ih =>
    rcases processLine_ok idx data l hvals hnames with ⟨r1, hr1⟩
    rcases ih with ⟨r2, hr2⟩
    obtain ⟨it, d⟩ := r1
    obtain ⟨its, tr⟩ := r2
    cases it with
    | none => exact ⟨(its, d :: tr), by rw [processLinesAux, hr1, hr2]⟩
    | some x => exact ⟨(x :: its, d :: tr), by rw [processLinesAux, hr1, hr2]⟩

/-- C3 counterexample: with a catalog whose matched product lacks the
1st_name field, process_order raises a KeyError instead of returning an
object, so the no-exception claim fails at the stated boundary. -/
theorem order_c3_cex :
    process_order (strL "cola") (Except.ok catC3) = Except.error keyErrName := by decide

/-- C3 (amended): process_order returns an object and propagates no
exception for every message and every catalog in which each entry carries
the 1st_name field; when a matched entry lacks that field the item
construction raises a KeyError. -/
theorem order_c3_amended (msg : Str) (data : Catalog)
    (hnames : ∀ q ∈ data, q.2.name1.isSome = true) :
    ∃ r, process_order msg (Except.ok data) = Except.ok r := by
  have hvals : ∀ p ∈ create_product_name_to_id_mapping data, dictHasKey data p.2 = true :=
    fun p hp => hasKey_of_values (create_values data p hp)
  rcases processLinesAux_ok (create_product_name_to_id_mapping data) data hvals hnames
      (plinesOf msg) with ⟨r, hr⟩
  refine ⟨⟨none, r.1, r.2⟩, ?_⟩
  show Except.map
      (fun r => ({error := none, order_items := r.1, product_matches := r.2} : OrderResult))
      (processLinesAux (create_product_name_to_id_mapping data) data (plinesOf msg)) =
    Except.ok ⟨none, r.1, r.2⟩
  rw [hr]
  rfl

/-- C3 witness: a complete catalog processes the message without raising. -/
theorem order_c3_witness :
    (∀ q ∈ catW3, q.2.name1.isSome = true) ∧
      ∃ r, process_order (strL "bia") (Except.ok catW3) = Except.ok r :=
  ⟨by decide, order_c3_amended (strL "bia") catW3 (by decide)⟩

end OrderProc
